import Mathlib

/-!
# Verification of the gowp worker pool (package gowp)

Shallow embedding of the `gowp` worker pool (the `Pool` variant built around
`newPool`/`submit`/`work` together with the error values of `error.go` and the
configuration validation of `config`).

The concurrent pool is modelled as a labelled transition system: every atomic
action of the Go program (a `Submit` call, a worker dequeuing and executing a
task, the coordinator goroutine firing one branch of its `select`, the phases
of `Wait`, external context cancellation) is one `Label`, and `step` gives the
deterministic effect of that action on the global state `PState`, returning
`none` when the action is not enabled (i.e. would block or is impossible) in
the given state.  A schedule of the concurrent program is a `List Label`, and
`run` folds `step` over it.  Channels are modelled by their buffer contents
plus a closed flag; a `close` of a `chan struct{}` used as a broadcast signal
is modelled as a `Bool` that flips to `true`.
-/

namespace Gowp

/-- Error values of the gowp package.  The sentinel constructors correspond to
the `Error` constants of error.go; `ctxCanceled` is `context.Canceled`;
`user n` stands for a distinct error value returned by a user task; `wrapped`
models `fmt.Errorf("<call site>: %w", e)`. -/
inductive GErr where
  | poolClosed
  | noBuffer
  | invalidSend
  | nilTask
  | invalidBuffer
  | invalidWorkerCnt
  | nilContext
  | ctxCanceled
  | user (n : Nat)
  | wrapped (pfx : String) (e : GErr)
deriving DecidableEq, Repr

/-- Nesting depth of `wrapped` wrappers around an error value. -/
def GErr.depth : GErr → Nat
  | .wrapped _ e => e.depth + 1
  | _ => 0

/-- `errsIs e target` models Go's `errors.Is(e, target)` for the error values
of this package: direct comparison, or comparison after unwrapping the
`fmt.Errorf("%w")` chain. -/
def errsIs : GErr → GErr → Bool
  | e, target =>
    if e = target then true
    else
      match e with
      | .wrapped _ inner => errsIs inner target
      | _ => false

/-- Strip one `fmt.Errorf("%w")` wrapper, i.e. Go's `errors.Unwrap` (identity
on unwrapped errors). -/
def unwrapOnce : GErr → GErr
  | .wrapped _ e => e
  | e => e

/-- A `Task` (`type Task func() error`) is modelled by an identity tag and by
the error value the closure returns (`none` = success).  Tasks are pure: the
embedding of the claims only concerns tasks that do not interact with each
other or with the pool. -/
structure Task where
  id : Nat
  res : Option GErr
deriving DecidableEq, Repr

/-- State of the coordinator goroutine spawned by `newPool`: blocked in its
`select` (`waiting`), past the `select` and executing the trailing
`p.errs <- err` (`sending err`), or returned (`done`). -/
inductive CoordState where
  | waiting
  | sending (v : Option GErr)
  | done
deriving DecidableEq, Repr

/-- Progress of the (first) `Wait` call through the body of `closeOnce.Do`:
not yet called; after `close(p.in)`; after `atomic.StoreUint32(&p.closed,
closed)`; after `p.wg.Wait()` and `close(p.exitFromErrG)`; and returned, with
the value read from `p.errs` into `p.err`. -/
inductive WaitPhase where
  | notCalled
  | inChanClosed
  | flagSet
  | workersDone
  | returned (r : Option GErr)
deriving DecidableEq, Repr

/-- Global state of one `Pool` together with its goroutines and its observable
interaction history.  `buf`/`inClosed` model the buffered channel `p.in`
(capacity `cap`); `errs` models the buffered channel `p.errs` (capacity 1,
holding `error` values which may be nil, hence `Option GErr`); `quit` and
`exitG` model the broadcast channels `p.quit` and `p.exitFromErrG` (`true` =
closed); `closedFlag` is the atomic `p.closed`; `workers` holds one `true` per
still-running worker goroutine; `perr` is `p.err`.  `executed` records, in
order, the tasks dequeued and run by workers; `submitResults` and
`waitResults` record the values returned by the internal `submit` and by the
reads of `p.err` in `Wait`. -/
structure PState where
  cap : Nat
  exitOnErr : Bool
  buf : List Task
  inClosed : Bool
  closedFlag : Bool
  quit : Bool
  exitG : Bool
  errs : List (Option GErr)
  cancelled : Bool
  workers : List Bool
  coord : CoordState
  waitPhase : WaitPhase
  perr : Option GErr
  executed : List Task
  submitResults : List (Option GErr)
  waitResults : List (Option GErr)
deriving DecidableEq, Repr

/-- The atomic actions of the system.  Worker actions carry the index of the
acting worker goroutine. -/
inductive Label where
  | submit (t : Option Task)
  | cancel
  | workerExec (i : Nat)
  | workerExitQuit (i : Nat)
  | workerExitClosed (i : Nat)
  | coordCancel
  | coordErr
  | coordExitG
  | coordSend
  | waitCloseIn
  | waitSetFlag
  | waitWorkersDone
  | waitRecv
  | waitAgain
deriving DecidableEq, Repr

/-- The body of `Pool.submit` (part_003 lines 133-156): nil-task check, atomic
closed-flag check, then a non-blocking `select` send on `p.in`.  A send on a
closed channel panics; the deferred `recover` turns that panic into
`ErrInvalidSend`, so the closed-channel case yields an error value rather than
a fault.  Returns the error result together with the new queue contents. -/
def submitCore (s : PState) (t : Option Task) : Option GErr × List Task :=
  match t with
  | none => (some .nilTask, s.buf)
  | some tk =>
    if s.closedFlag then (some .poolClosed, s.buf)
    else if s.inClosed then (some .invalidSend, s.buf)
    else if s.buf.length < s.cap then (none, s.buf ++ [tk])
    else (some .noBuffer, s.buf)

/-- The exported `Pool.Submit`: wraps any error from `submit` as
`fmt.Errorf("gowp.Pool.Submit(): %w", err)`. -/
def SubmitRes (s : PState) (t : Option Task) : Option GErr :=
  (submitCore s t).1.map (fun e => .wrapped "gowp.Pool.Submit(): " e)

/-- The exported `Pool.Wait` result given the captured `p.err`: `nil` stays
`nil`, an error is wrapped as `fmt.Errorf("gowp.Pool.Wait(): %w", p.err)`. -/
def WaitRes (p : Option GErr) : Option GErr :=
  p.map (fun e => .wrapped "gowp.Pool.Wait(): " e)

/-- The error result of `New(numTasks, opts...)` after the options have been
applied: the `numTasks <= 0` check, then `config.validate` (worker count
check, then nil-context check), each failure wrapped as
`fmt.Errorf("gowp.New(): %w", err)`. -/
def NewErr (numTasks : Int) (numWorkers : Int) (ctxIsNil : Bool) : Option GErr :=
  if numTasks ≤ 0 then some (.wrapped "gowp.New(): " .invalidBuffer)
  else if numWorkers ≤ 0 then some (.wrapped "gowp.New(): " .invalidWorkerCnt)
  else if ctxIsNil then some (.wrapped "gowp.New(): " .nilContext)
  else none

/-- The non-blocking error report in `work`: `select { case errs <- err:
default: }` on the capacity-1 channel `p.errs` — the report is dropped when
the buffer is full. -/
def reportErr (errs : List (Option GErr)) (e : GErr) : List (Option GErr) :=
  if errs.length < 1 then errs ++ [some e] else errs

/-- One atomic action of the system; `none` when the action is not enabled
(the corresponding goroutine would block, or no goroutine is at that point). -/
def step (l : Label) (s : PState) : Option PState :=
  match l with
  | .submit t =>
    some { s with buf := (submitCore s t).2,
                  submitResults := s.submitResults ++ [(submitCore s t).1] }
  | .cancel => some { s with cancelled := true }
  | .workerExec i =>
    if s.workers.getD i false then
      match s.buf with
      | [] => none
      | t :: rest =>
        some { s with buf := rest,
                      executed := s.executed ++ [t],
                      errs := match t.res with
                              | some e => reportErr s.errs e
                              | none => s.errs }
    else none
  | .workerExitQuit i =>
    if s.workers.getD i false && s.quit then
      some { s with workers := s.workers.set i false }
    else none
  | .workerExitClosed i =>
    if s.workers.getD i false && s.inClosed && s.buf.isEmpty then
      some { s with workers := s.workers.set i false }
    else none
  | .coordCancel =>
    match s.coord with
    | .waiting =>
      if s.cancelled then
        some { s with quit := true, coord := .sending (some .ctxCanceled) }
      else none
    | _ => none
  | .coordErr =>
    match s.coord, s.errs with
    | .waiting, v :: rest =>
      some { s with errs := rest,
                    quit := s.quit || s.exitOnErr,
                    coord := .sending v }
    | _, _ => none
  | .coordExitG =>
    match s.coord with
    | .waiting => if s.exitG then some { s with coord := .sending none } else none
    | _ => none
  | .coordSend =>
    match s.coord with
    | .sending v =>
      if s.errs.length < 1 then
        some { s with errs := s.errs ++ [v], coord := .done }
      else none
    | _ => none
  | .waitCloseIn =>
    match s.waitPhase with
    | .notCalled => some { s with inClosed := true, waitPhase := .inChanClosed }
    | _ => none
  | .waitSetFlag =>
    match s.waitPhase with
    | .inChanClosed => some { s with closedFlag := true, waitPhase := .flagSet }
    | _ => none
  | .waitWorkersDone =>
    match s.waitPhase with
    | .flagSet =>
      if s.workers.all (fun b => !b) then
        some { s with exitG := true, waitPhase := .workersDone }
      else none
    | _ => none
  | .waitRecv =>
    match s.waitPhase, s.errs with
    | .workersDone, v :: rest =>
      some { s with errs := rest,
                    perr := v,
                    waitPhase := .returned v,
                    waitResults := s.waitResults ++ [v] }
    | _, _ => none
  | .waitAgain =>
    match s.waitPhase with
    | .returned _ => some { s with waitResults := s.waitResults ++ [s.perr] }
    | _ => none

/-- Run a schedule of atomic actions from a state; `none` if some action in
the schedule is not enabled when its turn comes. -/
def run (tr : List Label) (s : PState) : Option PState :=
  match tr with
  | [] => some s
  | l :: rest =>
    match step l s with
    | none => none
    | some s' => run rest s'

/-- The state produced by `newPool(ctx, numWorkers, numTasks, exitOnErr)`:
empty capacity-`numTasks` queue, all channels open, `numWorkers` running
workers, the coordinator blocked in its `select`, `Wait` not yet called. -/
def init (cap numWorkers : Nat) (exitOnErr : Bool) : PState :=
  { cap := cap
    exitOnErr := exitOnErr
    buf := []
    inClosed := false
    closedFlag := false
    quit := false
    exitG := false
    errs := []
    cancelled := false
    workers := List.replicate numWorkers true
    coord := .waiting
    waitPhase := .notCalled
    perr := none
    executed := []
    submitResults := []
    waitResults := [] }

/-- Labels that are neither a `Submit` call nor external cancellation: the
internal actions of the pool plus the `Wait` caller. -/
def quiet : Label → Bool
  | .submit _ => false
  | .cancel => false
  | _ => true


theorem run_append (a b : List Label) (s : PState) :
    run (a ++ b) s = match run a s with
      | none => none
      | some s' => run b s' := by
  induction a generalizing s with
  | nil => simp [run]
  | cons l rest ih =>
    simp only [List.cons_append, run]
    cases step l s with
    | none => rfl
    | some s' => exact ih s'

theorem run_preserve (L : Label → Bool) (P : PState → Prop)
    (hstep : ∀ l s s', L l = true → step l s = some s' → P s → P s') :
    ∀ tr s s', tr.all L = true → run tr s = some s' → P s → P s' := by
  intro tr
  induction tr with
  | nil => intro s s' _ h hp; simp [run] at h; exact h ▸ hp
  | cons l rest ih =>
    intro s s' hall h hp
    simp only [List.all_cons, Bool.and_eq_true] at hall
    simp only [run] at h
    cases hstep' : step l s with
    | none => rw [hstep'] at h; exact absurd h (by simp)
    | some s1 =>
      rw [hstep'] at h
      exact ih s1 s' hall.2 h (hstep l s s1 hall.1 hstep' hp)

theorem step_flag_mono (l : Label) (s s' : PState) (h : step l s = some s')
    (hf : s.closedFlag = true) : s'.closedFlag = true := by
  cases l <;> simp only [step] at h <;> (repeat' split at h) <;>
    first
      | exact Option.noConfusion h
      | (injection h with h; subst h; simp_all)

theorem step_returned_stable (l : Label) (s s' : PState) (r : Option GErr)
    (h : step l s = some s') (hr : s.waitPhase = .returned r) :
    s'.waitPhase = .returned r ∧ s'.perr = s.perr := by
  cases l <;> simp only [step] at h <;> (repeat' split at h) <;>
    first
      | exact Option.noConfusion h
      | (injection h with h; subst h; simp_all)

theorem step_notCalled_escape (l : Label) (s s' : PState) (h : step l s = some s')
    (hnc : s.waitPhase ≠ .notCalled) : s'.waitPhase ≠ .notCalled := by
  cases l <;> simp only [step] at h <;> (repeat' split at h) <;>
    first
      | exact Option.noConfusion h
      | (injection h with h; subst h; simp_all)



theorem wrapped_ne (p : String) (e : GErr) : GErr.wrapped p e ≠ e := by
  intro h
  have hd := congrArg GErr.depth h
  simp only [GErr.depth] at hd
  omega

theorem errsIs_self (e : GErr) : errsIs e e = true := by
  unfold errsIs
  simp

theorem errsIs_wrap (p : String) (e : GErr) : errsIs (.wrapped p e) e = true := by
  unfold errsIs
  split
  · rfl
  · exact errsIs_self e

/-- Default state used with `Option.getD` when naming reachable states. -/
def dflt : PState := init 0 0 false

/-- The state reached mid-`Wait`, after `close(p.in)` but before the store to
the atomic `closed` flag (the race window C8 describes). -/
def raceState : PState := (run [Label.waitCloseIn] (init 1 0 false)).getD dflt

/-- The state with the closed flag set, reached after the first two statements
of `Wait` on a fresh pool. -/
def closedState : PState :=
  (run [Label.waitCloseIn, Label.waitSetFlag] (init 1 0 false)).getD dflt

/-- The state of a capacity-1 pool whose queue holds one pending task. -/
def fullState : PState :=
  (run [Label.submit (some ⟨1, none⟩)] (init 1 1 true)).getD dflt

/-- C1 (counterexample): after the external cancellation source fires and the
coordinator broadcasts the shutdown signal (`close(p.quit)`, so `s.quit =
true`), a subsequent `Submit` still succeeds (`submit` returns nil, recorded
as `none`) and the task is enqueued — the claim that every subsequent Submit
call fails rather than enqueuing the task is false for the code, because
cancellation never sets the atomic `closed` flag that `submit` checks. -/
theorem c1_cancel_does_not_block_submit :
    (run [Label.cancel, Label.coordCancel, Label.submit (some ⟨0, none⟩)]
        (init 1 1 true)).map (fun s => (s.quit, s.submitResults, s.buf)) =
      some (true, [none], [⟨0, none⟩]) := rfl

/-- C1 (amended): no new task is accepted once the atomic `closed` flag is set
(which only `Wait` does): `submit` then fails without enqueuing — with
`ErrPoolClosed` for a non-nil task — and the flag, once set, survives every
further step of the system.  The quit broadcast alone (the path taken on
external cancellation) does not make `Submit` fail. -/
theorem c1_closed_flag_blocks_submit (s : PState) (t : Option Task)
    (hf : s.closedFlag = true) :
    (submitCore s t).1 ≠ none ∧ (submitCore s t).2 = s.buf ∧
    (∀ tk, t = some tk →
      SubmitRes s t = some (.wrapped "gowp.Pool.Submit(): " .poolClosed)) ∧
    (∀ l s', step l s = some s' → s'.closedFlag = true) := by
  refine ⟨?_, ?_, ?_, fun l s' h => step_flag_mono l s s' h hf⟩
  · cases t <;> simp [submitCore, hf]
  · cases t <;> simp [submitCore, hf]
  · intro tk ht
    subst ht
    simp [SubmitRes, submitCore, hf]

/-- C1 (witness): the amended theorem applied to the concrete closed state and
a concrete task. -/
theorem c1_closed_flag_blocks_submit_witness :
    (submitCore closedState (some ⟨5, none⟩)).1 ≠ none ∧
    (submitCore closedState (some ⟨5, none⟩)).2 = closedState.buf ∧
    (∀ tk, (some ⟨5, none⟩ : Option Task) = some tk →
      SubmitRes closedState (some ⟨5, none⟩) =
        some (.wrapped "gowp.Pool.Submit(): " .poolClosed)) ∧
    (∀ l s', step l closedState = some s' → s'.closedFlag = true) :=
  c1_closed_flag_blocks_submit closedState (some ⟨5, none⟩) rfl

/-- C2 (counterexample): pool built with exit-on-error enabled (capacity 2,
one worker); the worker dequeues a failing task, reports its error (`s.errs`
holds it), and then — before the coordinator has broadcast quit — dequeues and
executes a further task, and is still running.  The claim that the worker
exits its loop on a failing task, executing no further tasks itself, is false
for `work`: the loop body reports the error and continues. -/
theorem c2_worker_continues_after_error_report :
    (run [Label.submit (some ⟨1, some (.user 1)⟩), Label.submit (some ⟨2, none⟩),
          Label.workerExec 0, Label.workerExec 0] (init 2 1 true)).map
        (fun s => (s.executed, s.workers, s.errs)) =
      some ([⟨1, some (.user 1)⟩, ⟨2, none⟩], [true], [some (.user 1)]) := rfl

/-- C2 (amended): executing a task — failing or not — never terminates the
worker's loop (`workers` is unchanged by a `workerExec` step); a worker exits
either by observing the quit broadcast (possible only once `quit` is closed)
or by finding the queue closed and empty; and with exit-on-error enabled the
coordinator closes `quit` when it receives a reported error, which is what
eventually makes each worker exit. -/
theorem c2_worker_error_exit_via_quit (i : Nat) (s s' : PState) :
    (step (.workerExec i) s = some s' → s'.workers = s.workers) ∧
    (step (.workerExitQuit i) s = some s' →
      s.quit = true ∧ s'.workers = s.workers.set i false) ∧
    (step (.workerExitClosed i) s = some s' →
      s.inClosed = true ∧ s.buf = [] ∧ s'.workers = s.workers.set i false) ∧
    (s.coord = .waiting → s.exitOnErr = true →
      step .coordErr s = some s' → s'.quit = true) := by
  refine ⟨?_, ?_, ?_, ?_⟩
  · intro h
    simp only [step] at h
    repeat' split at h
    all_goals first
      | exact Option.noConfusion h
      | (injection h with h; subst h; simp_all)
  · intro h
    simp only [step] at h
    repeat' split at h
    all_goals first
      | exact Option.noConfusion h
      | (injection h with h; subst h; simp_all)
  · intro h
    simp only [step] at h
    repeat' split at h
    all_goals first
      | exact Option.noConfusion h
      | (injection h with h; subst h; simp_all)
  · intro hc he h
    simp only [step] at h
    repeat' split at h
    all_goals first
      | exact Option.noConfusion h
      | (injection h with h; subst h; simp_all)

/-- Intermediate states of the C2 schedule, used by the C2 witness. -/
def c2StateA : PState :=
  (run [Label.submit (some ⟨1, some (.user 1)⟩)] (init 2 1 true)).getD dflt

/-- State after the worker has executed the failing task from `c2StateA`. -/
def c2StateB : PState := (step (.workerExec 0) c2StateA).getD dflt

/-- State after the coordinator has consumed the reported error. -/
def c2StateC : PState := (step .coordErr c2StateB).getD dflt

/-- C2 (witness): the amended theorem applied at concrete states — executing
the failing task leaves the worker running, and the coordinator's receipt of
the error (exit-on-error enabled) closes quit. -/
theorem c2_worker_error_exit_via_quit_witness :
    c2StateB.workers = c2StateA.workers ∧ c2StateC.quit = true :=
  ⟨(c2_worker_error_exit_via_quit 0 c2StateA c2StateB).1 rfl,
   (c2_worker_error_exit_via_quit 0 c2StateB c2StateC).2.2.2 rfl rfl rfl⟩

/-- C8: `Submit` never panics on the closed-check/send race: in any state
where the atomic closed flag still reads open but the queue channel has
already been closed (the window between `close(p.in)` and the flag store in
`Wait`), a non-nil submission returns the `ErrInvalidSend` typed error
(wrapped with the call-site prefix) and leaves the queue unchanged; the
recovered panic is modelled as this error value, so `submitCore` is a total
function and no fault propagates. -/
theorem c8_submit_race_invalidSend (s : PState) (tk : Task)
    (hflag : s.closedFlag = false) (hclosed : s.inClosed = true) :
    SubmitRes s (some tk) = some (.wrapped "gowp.Pool.Submit(): " .invalidSend) ∧
    (submitCore s (some tk)).2 = s.buf := by
  simp [SubmitRes, submitCore, hflag, hclosed]

/-- C8 (witness): the theorem applied to the reachable race-window state
(after `close(p.in)`, before the flag store). -/
theorem c8_submit_race_invalidSend_witness :
    SubmitRes raceState (some ⟨3, none⟩) =
      some (.wrapped "gowp.Pool.Submit(): " .invalidSend) ∧
    (submitCore raceState (some ⟨3, none⟩)).2 = raceState.buf :=
  c8_submit_race_invalidSend raceState ⟨3, none⟩ rfl rfl

/-- C9: on an open pool whose queue already holds capacity-many pending
tasks, a further non-nil submission returns the `ErrNoBuffer` buffer-
exhaustion error (wrapped with the call-site prefix) without enqueuing; the
attempt is the non-blocking `select` with a `default` branch, so the caller
is never blocked. -/
theorem c9_submit_full_noBuffer (s : PState) (tk : Task)
    (hflag : s.closedFlag = false) (hopen : s.inClosed = false)
    (hfull : s.buf.length = s.cap) :
    SubmitRes s (some tk) = some (.wrapped "gowp.Pool.Submit(): " .noBuffer) ∧
    (submitCore s (some tk)).2 = s.buf := by
  simp [SubmitRes, submitCore, hflag, hopen, hfull]

/-- C9 (witness): a capacity-1 pool with one pending submission; a further
submission is refused with the buffer-exhaustion error. -/
theorem c9_submit_full_noBuffer_witness :
    SubmitRes fullState (some ⟨2, none⟩) =
      some (.wrapped "gowp.Pool.Submit(): " .noBuffer) ∧
    (submitCore fullState (some ⟨2, none⟩)).2 = fullState.buf :=
  c9_submit_full_noBuffer fullState ⟨2, none⟩ rfl rfl rfl

/-- C10: every error returned by `New`, `Pool.Submit` and `Pool.Wait` is a
`fmt.Errorf` wrapper whose prefix names the call site, so the returned value
is never equal (by direct comparison) to the underlying sentinel or task
error, while `errors.Is` still identifies the underlying error through the
wrapper. -/
theorem c10_errors_wrapped_with_callsite :
    (∀ nt nw c r, NewErr nt nw c = some r →
      r = .wrapped "gowp.New(): " (unwrapOnce r) ∧ r ≠ unwrapOnce r ∧
        errsIs r (unwrapOnce r) = true) ∧
    (∀ s t r, SubmitRes s t = some r →
      r = .wrapped "gowp.Pool.Submit(): " (unwrapOnce r) ∧ r ≠ unwrapOnce r ∧
        errsIs r (unwrapOnce r) = true) ∧
    (∀ p r, WaitRes p = some r →
      r = .wrapped "gowp.Pool.Wait(): " (unwrapOnce r) ∧ r ≠ unwrapOnce r ∧
        errsIs r (unwrapOnce r) = true) := by
  refine ⟨?_, ?_, ?_⟩
  · intro nt nw c r h
    unfold NewErr at h
    repeat' split at h
    all_goals first
      | exact Option.noConfusion h
      | (injection h with h; subst h;
         exact ⟨rfl, (wrapped_ne _ _), errsIs_wrap _ _⟩)
  · intro s t r h
    unfold SubmitRes at h
    rw [Option.map_eq_some'] at h
    obtain ⟨a, _, ha⟩ := h
    subst ha
    exact ⟨rfl, wrapped_ne _ _, errsIs_wrap _ _⟩
  · intro p r h
    unfold WaitRes at h
    rw [Option.map_eq_some'] at h
    obtain ⟨a, _, ha⟩ := h
    subst ha
    exact ⟨rfl, wrapped_ne _ _, errsIs_wrap _ _⟩

/-- C10 (witness): the theorem applied to the concrete error of
`New(0, ...)`, of `Submit` on a closed pool, and of `Wait` after a task
failure. -/
theorem c10_errors_wrapped_with_callsite_witness :
    (GErr.wrapped "gowp.New(): " .invalidBuffer =
      .wrapped "gowp.New(): " (unwrapOnce (.wrapped "gowp.New(): " .invalidBuffer)) ∧
      GErr.wrapped "gowp.New(): " .invalidBuffer ≠
        unwrapOnce (.wrapped "gowp.New(): " .invalidBuffer) ∧
      errsIs (.wrapped "gowp.New(): " .invalidBuffer)
        (unwrapOnce (.wrapped "gowp.New(): " .invalidBuffer)) = true) ∧
    (GErr.wrapped "gowp.Pool.Wait(): " (.user 7) =
      .wrapped "gowp.Pool.Wait(): " (unwrapOnce (.wrapped "gowp.Pool.Wait(): " (.user 7))) ∧
      GErr.wrapped "gowp.Pool.Wait(): " (.user 7) ≠
        unwrapOnce (.wrapped "gowp.Pool.Wait(): " (.user 7)) ∧
      errsIs (.wrapped "gowp.Pool.Wait(): " (.user 7))
        (unwrapOnce (.wrapped "gowp.Pool.Wait(): " (.user 7))) = true) :=
  ⟨c10_errors_wrapped_with_callsite.1 0 1 false _ rfl,
   c10_errors_wrapped_with_callsite.2.2 (some (.user 7)) _ rfl⟩



theorem list_all_true (tr : List Label) : tr.all (fun _ => true) = true := by
  simp

/-- The closed flag is set whenever `Wait` has progressed past its store to
`p.closed` (phases `flagSet`, `workersDone`, `returned`). -/
def flagInv (s : PState) : Prop :=
  (s.waitPhase = .flagSet ∨ s.waitPhase = .workersDone ∨
    (∃ r, s.waitPhase = .returned r)) → s.closedFlag = true

theorem step_flagInv (l : Label) (s s' : PState) (h : step l s = some s')
    (hp : flagInv s) : flagInv s' := by
  unfold flagInv at hp ⊢
  cases l <;> simp only [step] at h <;> (repeat' split at h) <;>
    first
      | exact Option.noConfusion h
      | (injection h with h; subst h; simp_all)

/-- The read of `p.err` performed by every `Wait` call returns the captured
first value: before the drain finishes `p.err` is nil, and the `returned`
phase records exactly `p.err`. -/
def retInv (s : PState) : Prop :=
  ((∀ r, s.waitPhase ≠ .returned r) → s.perr = none) ∧
  (∀ r, s.waitPhase = .returned r → s.perr = r)

theorem step_retInv (l : Label) (s s' : PState) (h : step l s = some s')
    (hp : retInv s) : retInv s' := by
  unfold retInv at hp ⊢
  cases l <;> simp only [step] at h <;> (repeat' split at h) <;>
    first
      | exact Option.noConfusion h
      | (injection h with h; subst h; simp_all)

/-- Every value appended to `waitResults` equals the captured `p.err`, and no
result is produced before the capture. -/
def waitInv (s : PState) : Prop :=
  (∀ x ∈ s.waitResults, x = s.perr) ∧
  ((∀ r, s.waitPhase ≠ .returned r) → s.waitResults = [])

theorem step_waitInv (l : Label) (s s' : PState) (h : step l s = some s')
    (hp : waitInv s) : waitInv s' := by
  obtain ⟨hp1, hp2⟩ := hp
  cases l <;> simp only [step] at h <;> (repeat' split at h) <;>
    first
      | exact Option.noConfusion h
      | (injection h with h; subst h; exact ⟨hp1, hp2⟩)
      | (injection h with h; subst h;
         exact ⟨hp1, fun hno => hp2 (fun r hr => by simp_all)⟩)
      | (injection h with h; subst h;
         refine ⟨?_, fun hno => (hno _ rfl).elim⟩
         have hres : s.waitResults = [] := hp2 (fun r hr => by simp_all)
         simp [hres])
      | (injection h with h; subst h;
         refine ⟨?_, fun hno => (hno _ (by assumption)).elim⟩
         intro x hx
         rcases List.mem_append.mp hx with hx | hx
         · exact hp1 x hx
         · simpa using hx)

theorem run_returned_stable (tr : List Label) (s s2 : PState) (r : Option GErr)
    (h : run tr s = some s2) (hr : s.waitPhase = .returned r) :
    s2.waitPhase = .returned r ∧ s2.perr = s.perr := by
  have := run_preserve (fun _ => true)
    (fun x => x.waitPhase = .returned r ∧ x.perr = s.perr)
    (fun l a b _ hab hpa => by
      obtain ⟨h1, h2⟩ := step_returned_stable l a b r hab hpa.1
      exact ⟨h1, h2.trans hpa.2⟩)
    tr s s2 (list_all_true tr) h ⟨hr, rfl⟩
  exact this

theorem step_closeIn_inv (s s1 : PState) (h : step .waitCloseIn s = some s1) :
    s.waitPhase = .notCalled ∧ s1.waitPhase = .inChanClosed := by
  simp only [step] at h
  split at h
  · injection h with h
    subst h
    exact ⟨by assumption, rfl⟩
  · exact Option.noConfusion h

/-- Any successful schedule contains at most one effective `close(p.in)` (the
body of `closeOnce.Do`), counted relative to how far `Wait` has progressed in
the starting state. -/
theorem run_closeIn_count (tr : List Label) (s s' : PState)
    (h : run tr s = some s') :
    tr.count Label.waitCloseIn ≤ if s.waitPhase = .notCalled then 1 else 0 := by
  induction tr generalizing s with
  | nil => simp
  | cons l rest ih =>
    simp only [run] at h
    cases hs : step l s with
    | none => rw [hs] at h; exact absurd h (by simp)
    | some s1 =>
      rw [hs] at h
      have hrest := ih s1 h
      by_cases hl : l = Label.waitCloseIn
      · subst hl
        obtain ⟨h1, h2⟩ := step_closeIn_inv s s1 hs
        have hr0 : rest.count Label.waitCloseIn = 0 := by
          rw [h2] at hrest
          simpa using hrest
        simp [List.count_cons, h1, hr0]
      · have hcc : (l :: rest).count Label.waitCloseIn =
            rest.count Label.waitCloseIn := by
          simp [List.count_cons, hl]
        rw [hcc]
        by_cases hnc : s.waitPhase = .notCalled
        · rw [if_pos hnc]
          by_cases hx : s1.waitPhase = .notCalled
          · rw [if_pos hx] at hrest
            exact hrest
          · rw [if_neg hx] at hrest
            omega
        · rw [if_neg hnc]
          rw [if_neg (step_notCalled_escape l s s1 hs hnc)] at hrest
          exact hrest

/-- C5: `Wait` is idempotent.  In every schedule from a fresh pool, all values
ever returned by `Wait` reads equal the single captured `p.err` (so any two
`Wait` calls, including concurrent ones, return the same value), and the drain
logic — the `close(p.in)` performed inside `closeOnce.Do` — executes at most
once in the schedule. -/
theorem c5_wait_idempotent (c w : Nat) (e : Bool) (tr : List Label) (s : PState)
    (hrun : run tr (init c w e) = some s) :
    (∀ x ∈ s.waitResults, x = s.perr) ∧
    (∀ x ∈ s.waitResults, ∀ y ∈ s.waitResults, x = y) ∧
    tr.count Label.waitCloseIn ≤ 1 := by
  have hw : waitInv s := by
    refine run_preserve (fun _ => true) waitInv ?_ tr (init c w e) s
      (list_all_true tr) hrun ?_
    · exact fun l a b _ hab hpa => step_waitInv l a b hab hpa
    · exact ⟨by simp [init], fun _ => rfl⟩
  have hcount := run_closeIn_count tr (init c w e) s hrun
  simp only [init, if_pos rfl] at hcount
  refine ⟨hw.1, ?_, hcount⟩
  intro x hx y hy
  rw [hw.1 x hx, hw.1 y hy]

/-- Schedule of a complete no-error run with two `Wait` reads, for the C5
witness. -/
def c5Trace : List Label :=
  [Label.waitCloseIn, Label.waitSetFlag, Label.waitWorkersDone,
   Label.coordExitG, Label.coordSend, Label.waitRecv, Label.waitAgain]

/-- State at the end of `c5Trace`. -/
def c5State : PState := (run c5Trace (init 1 0 false)).getD dflt

/-- C5 (witness): the idempotence theorem applied to a concrete schedule in
which `Wait` completes and is then called a second time: both recorded wait
results equal the captured error and `close(p.in)` happened once. -/
theorem c5_wait_idempotent_witness :
    (∀ x ∈ c5State.waitResults, x = c5State.perr) ∧
    (∀ x ∈ c5State.waitResults, ∀ y ∈ c5State.waitResults, x = y) ∧
    c5Trace.count Label.waitCloseIn ≤ 1 :=
  c5_wait_idempotent 1 0 false c5Trace c5State rfl

/-- C6: after `Wait` has been called and returned (phase `returned`), every
`Submit` of a non-nil task fails with the pool-closed error wrapped at the
Submit call site, and `errors.Is` identifies `ErrPoolClosed`; the decision is
taken by the atomic closed flag (`submitCore` consults `closedFlag`, not the
queue contents). -/
theorem c6_submit_after_wait_poolClosed (c w : Nat) (e : Bool) (tr : List Label)
    (s : PState) (r : Option GErr) (tk : Task)
    (hrun : run tr (init c w e) = some s) (hret : s.waitPhase = .returned r) :
    SubmitRes s (some tk) = some (.wrapped "gowp.Pool.Submit(): " .poolClosed) ∧
    errsIs (.wrapped "gowp.Pool.Submit(): " .poolClosed) .poolClosed = true := by
  have hflag : s.closedFlag = true := by
    have hf : flagInv s := by
      refine run_preserve (fun _ => true) flagInv ?_ tr (init c w e) s
        (list_all_true tr) hrun ?_
      · exact fun l a b _ hab hpa => step_flagInv l a b hab hpa
      · intro hc
        simp [init] at hc
    exact hf (Or.inr (Or.inr ⟨r, hret⟩))
  constructor
  · simp [SubmitRes, submitCore, hflag]
  · exact errsIs_wrap _ _

/-- Schedule of a completed `Wait` on an empty pool, for the C6 witness. -/
def c6Trace : List Label :=
  [Label.waitCloseIn, Label.waitSetFlag, Label.waitWorkersDone,
   Label.coordExitG, Label.coordSend, Label.waitRecv]

/-- State at the end of `c6Trace`. -/
def c6State : PState := (run c6Trace (init 1 0 false)).getD dflt

/-- C6 (witness): the theorem applied to the concrete state in which `Wait`
has returned on a fresh pool. -/
theorem c6_submit_after_wait_poolClosed_witness :
    SubmitRes c6State (some ⟨9, none⟩) =
      some (.wrapped "gowp.Pool.Submit(): " .poolClosed) ∧
    errsIs (.wrapped "gowp.Pool.Submit(): " .poolClosed) .poolClosed = true :=
  c6_submit_after_wait_poolClosed 1 0 false c6Trace c6State none ⟨9, none⟩ rfl rfl

/-- C7 (counterexample): two failing tasks, exit-on-error enabled.  Task 1
executes first and its error (`user 1`) is reported first; the coordinator
consumes it; before the coordinator re-sends it, task 2's error (`user 2`) is
reported into the freed slot; `Wait`'s read then captures `user 2` and the
first error ends up parked in `p.errs`, never read.  The captured error is a
later report, not the first — first-write-wins fails and the first error is
silently lost. -/
theorem c7_second_error_captured :
    (run [Label.submit (some ⟨1, some (.user 1)⟩),
          Label.submit (some ⟨2, some (.user 2)⟩),
          Label.workerExec 0, Label.coordErr, Label.workerExec 0,
          Label.workerExitQuit 0, Label.workerExitQuit 1,
          Label.waitCloseIn, Label.waitSetFlag, Label.waitWorkersDone,
          Label.waitRecv, Label.coordSend] (init 2 2 true)).map
        (fun s => (s.executed, s.perr, s.errs, s.waitPhase)) =
      some ([⟨1, some (.user 1)⟩, ⟨2, some (.user 2)⟩],
            some (.user 2), [some (.user 1)],
            .returned (some (.user 2))) := rfl

/-- C7 (amended): the slot `p.err` is written at most once — it stays nil
until `Wait`'s single read and is stable (together with the returned phase)
under every further step — and a worker's error report that finds the report
channel full is dropped (the channel is unchanged).  However the value
captured is the head of the report channel at `Wait`'s read, which (per the
counterexample) need not be the first error reported. -/
theorem c7_perr_written_once (c w : Nat) (e : Bool) (tr : List Label) (s : PState)
    (hrun : run tr (init c w e) = some s) :
    ((∀ r, s.waitPhase ≠ .returned r) → s.perr = none) ∧
    (∀ r, s.waitPhase = .returned r → s.perr = r ∧
      ∀ tr2 s2, run tr2 s = some s2 →
        s2.perr = s.perr ∧ s2.waitPhase = s.waitPhase) ∧
    (∀ i s', step (.workerExec i) s = some s' → s.errs ≠ [] → s'.errs = s.errs) := by
  have hret : retInv s := by
    refine run_preserve (fun _ => true) retInv ?_ tr (init c w e) s
      (list_all_true tr) hrun ?_
    · exact fun l a b _ hab hpa => step_retInv l a b hab hpa
    · exact ⟨fun _ => rfl, fun r h => by simp [init] at h⟩
  refine ⟨hret.1, ?_, ?_⟩
  · intro r hr
    refine ⟨hret.2 r hr, ?_⟩
    intro tr2 s2 h2
    have := run_returned_stable tr2 s s2 r h2 hr
    exact ⟨this.2, this.1.trans hr.symm⟩
  · intro i s' h hne
    simp only [step] at h
    split at h
    · split at h
      · exact Option.noConfusion h
      · injection h with h
        subst h
        simp only
        split
        · show reportErr s.errs _ = s.errs
          unfold reportErr
          rw [if_neg]
          simp only [not_lt]
          exact List.length_pos.mpr hne
        · rfl
    · exact Option.noConfusion h

/-- C7 (witness): the amended theorem applied at the fresh pool with the empty
schedule. -/
theorem c7_perr_written_once_witness :
    ((∀ r, (init 1 1 true).waitPhase ≠ .returned r) → (init 1 1 true).perr = none) ∧
    (∀ r, (init 1 1 true).waitPhase = .returned r → (init 1 1 true).perr = r ∧
      ∀ tr2 s2, run tr2 (init 1 1 true) = some s2 →
        s2.perr = (init 1 1 true).perr ∧ s2.waitPhase = (init 1 1 true).waitPhase) ∧
    (∀ i s', step (.workerExec i) (init 1 1 true) = some s' →
      (init 1 1 true).errs ≠ [] → s'.errs = (init 1 1 true).errs) :=
  c7_perr_written_once 1 1 true [] (init 1 1 true) rfl



theorem all_not_set_false (l : List Bool) (i : Nat)
    (h : l.all (fun b => !b) = true) : (l.set i false).all (fun b => !b) = true := by
  rw [List.all_eq_true] at h ⊢
  intro x hx
  rcases List.mem_or_eq_of_mem_set hx with hx | rfl
  · exact h x hx
  · rfl

theorem exists_false_of_all_not (l : List Bool) (h : l.all (fun b => !b) = true)
    (hl : 1 ≤ l.length) : ∃ b ∈ l, b = false := by
  cases l with
  | nil => simp at hl
  | cons x xs =>
    refine ⟨x, List.mem_cons_self x xs, ?_⟩
    rw [List.all_cons, Bool.and_eq_true] at h
    cases x
    · rfl
    · simp at h

theorem not_all_not_of_all_id (l : List Bool) (h : l.all id = true)
    (hl : 1 ≤ l.length) : ¬ l.all (fun b => !b) = true := by
  cases l with
  | nil => simp at hl
  | cons x xs =>
    rw [List.all_cons, Bool.and_eq_true] at h
    rw [List.all_cons, Bool.and_eq_true]
    intro hc
    have hx : x = true := h.1
    rw [hx] at hc
    simp at hc

/-- All the submissions of a list of tasks succeed, in order, on an open pool
with room for all of them: the queue gains exactly those tasks and every
recorded `submit` result is nil. -/
theorem run_submits (ts : List Task) (s : PState)
    (h1 : s.closedFlag = false) (h2 : s.inClosed = false)
    (hlen : s.buf.length + ts.length ≤ s.cap) :
    run (ts.map (fun t => Label.submit (some t))) s =
      some { s with buf := s.buf ++ ts,
                    submitResults := s.submitResults ++ List.replicate ts.length none } := by
  induction ts generalizing s with
  | nil => simp [run]
  | cons t rest ih =>
    have hcore : submitCore s (some t) = (none, s.buf ++ [t]) := by
      rw [submitCore]
      rw [if_neg (by simp [h1]), if_neg (by simp [h2]), if_pos (by simp at hlen ⊢; omega)]
    simp only [List.map_cons, run, step, hcore]
    have := ih { s with buf := s.buf ++ [t],
                        submitResults := s.submitResults ++ [none] }
      h1 h2 (by simp at hlen ⊢; omega)
    rw [this]
    simp [List.append_assoc, List.replicate_succ]



/-- Inductive invariant for the all-tasks-succeed scenario of C3, holding from
the post-submission state on, over schedules without further `Submit` calls or
cancellation: no error is ever reported, quit never fires, the queue plus the
execution history always equals the submitted tasks, a worker exit implies the
queue was drained, and a returned `Wait` implies a nil result with the queue
empty. -/
structure C3Inv (tasks : List Task) (w : Nat) (s : PState) : Prop where
  canc : s.cancelled = false
  noquit : s.quit = false
  hist : s.executed ++ s.buf = tasks
  subres : s.submitResults = List.replicate tasks.length none
  errsOK : s.errs = [] ∨ (s.errs = [none] ∧ s.coord = .done)
  coordOK : s.coord = .waiting ∨ s.coord = .sending none ∨ s.coord = .done
  wlen : s.workers.length = w
  exitEmpty : (∃ b ∈ s.workers, b = false) → s.buf = []
  allExited : (s.waitPhase = .workersDone ∨ (∃ r, s.waitPhase = .returned r)) →
    s.workers.all (fun b => !b) = true
  retOK : ∀ r, s.waitPhase = .returned r → r = none ∧ s.perr = none ∧ s.buf = []

theorem step_c3inv (tasks : List Task) (w : Nat) (hw : 1 ≤ w)
    (hres : ∀ t ∈ tasks, t.res = none)
    (l : Label) (s s' : PState) (hql : quiet l = true)
    (h : step l s = some s') (hp : C3Inv tasks w s) : C3Inv tasks w s' := by
  obtain ⟨canc, noquit, hist, subres, errsOK, coordOK, wlen, exitEmpty, allExited, retOK⟩ := hp
  cases l with
  | submit t => simp [quiet] at hql
  | cancel => simp [quiet] at hql
  | workerExec i =>
    simp only [step] at h
    split at h
    · split at h
      · exact Option.noConfusion h
      · rename_i t rest hbuf
        injection h with h
        subst h
        have htmem : t ∈ tasks := by
          rw [← hist]
          exact List.mem_append_right _ (by rw [hbuf]; exact List.mem_cons_self t rest)
        have htask : t.res = none := hres t htmem
        refine ⟨canc, noquit, ?_, subres, ?_, coordOK, wlen, ?_, allExited, ?_⟩
        · show (s.executed ++ [t]) ++ rest = tasks
          rw [hbuf] at hist
          rw [List.append_assoc]
          simpa using hist
        · show (match t.res with
            | some e => reportErr s.errs e
            | none => s.errs) = [] ∨ _
          rw [htask]
          exact errsOK
        · intro hex
          exact absurd ((exitEmpty hex).symm.trans hbuf) (by simp)
        · intro r hph
          exact absurd ((retOK r hph).2.2.symm.trans hbuf) (by simp)
    · exact Option.noConfusion h
  | workerExitQuit i =>
    simp only [step] at h
    split at h
    · rename_i hcond
      rw [Bool.and_eq_true] at hcond
      exact absurd (noquit.symm.trans hcond.2) Bool.false_ne_true
    · exact Option.noConfusion h
  | workerExitClosed i =>
    simp only [step] at h
    split at h
    · rename_i hcond
      rw [Bool.and_eq_true, Bool.and_eq_true] at hcond
      have hbe : s.buf = [] := by
        have := hcond.2
        rwa [List.isEmpty_iff] at this
      injection h with h
      subst h
      refine ⟨canc, noquit, hist, subres, errsOK, coordOK, ?_, ?_, ?_, retOK⟩
      · show (s.workers.set i false).length = w
        rw [List.length_set]
        exact wlen
      · intro _
        exact hbe
      · intro hph
        exact all_not_set_false _ _ (allExited hph)
    · exact Option.noConfusion h
  | coordCancel =>
    simp only [step] at h
    repeat' split at h
    all_goals first
      | exact Option.noConfusion h
      | (exact absurd (canc.symm.trans (by assumption)) Bool.false_ne_true)
  | coordErr =>
    simp only [step] at h
    split at h
    · rename_i v rest hco herrs
      rcases errsOK with he | ⟨he, hc⟩
      · exact absurd (he.symm.trans herrs) (by simp)
      · exact absurd (hco.symm.trans hc) (by simp)
    · exact Option.noConfusion h
  | coordExitG =>
    simp only [step] at h
    split at h
    · rename_i hco
      split at h
      · injection h with h
        subst h
        refine ⟨canc, noquit, hist, subres, ?_, ?_, wlen, exitEmpty, allExited, retOK⟩
        · rcases errsOK with he | ⟨he, hc⟩
          · exact Or.inl he
          · exact absurd (hco.symm.trans hc) (by simp)
        · exact Or.inr (Or.inl rfl)
      · exact Option.noConfusion h
    · exact Option.noConfusion h
  | coordSend =>
    simp only [step] at h
    split at h
    · rename_i v hco
      split at h
      · rename_i hlen1
        injection h with h
        subst h
        have hnil : s.errs = [] := List.eq_nil_of_length_eq_zero (Nat.lt_one_iff.mp hlen1)
        have hv : v = none := by
          rcases coordOK with hc | hc | hc
          · exact absurd (hco.symm.trans hc) (by simp)
          · simp_all
          · exact absurd (hco.symm.trans hc) (by simp)
        refine ⟨canc, noquit, hist, subres, ?_, ?_, wlen, exitEmpty, allExited, retOK⟩
        · refine Or.inr ⟨?_, rfl⟩
          show s.errs ++ [v] = [none]
          rw [hnil, hv]
          rfl
        · exact Or.inr (Or.inr rfl)
      · exact Option.noConfusion h
    · exact Option.noConfusion h
  | waitCloseIn =>
    simp only [step] at h
    split at h
    · injection h with h
      subst h
      refine ⟨canc, noquit, hist, subres, errsOK, coordOK, wlen, exitEmpty, ?_, ?_⟩
      · intro hph
        rcases hph with hph | ⟨r, hph⟩ <;> exact WaitPhase.noConfusion hph
      · intro r hph
        exact WaitPhase.noConfusion hph
    · exact Option.noConfusion h
  | waitSetFlag =>
    simp only [step] at h
    split at h
    · injection h with h
      subst h
      refine ⟨canc, noquit, hist, subres, errsOK, coordOK, wlen, exitEmpty, ?_, ?_⟩
      · intro hph
        rcases hph with hph | ⟨r, hph⟩ <;> exact WaitPhase.noConfusion hph
      · intro r hph
        exact WaitPhase.noConfusion hph
    · exact Option.noConfusion h
  | waitWorkersDone =>
    simp only [step] at h
    split at h
    · split at h
      · rename_i hall
        injection h with h
        subst h
        refine ⟨canc, noquit, hist, subres, errsOK, coordOK, wlen, exitEmpty, ?_, ?_⟩
        · intro _
          exact hall
        · intro r hph
          exact WaitPhase.noConfusion hph
      · exact Option.noConfusion h
    · exact Option.noConfusion h
  | waitRecv =>
    simp only [step] at h
    split at h
    · rename_i v rest hph herrs
      injection h with h
      subst h
      have hbufnil : s.buf = [] := by
        have hall := allExited (Or.inl hph)
        have hex := exists_false_of_all_not s.workers hall (by rw [wlen]; exact hw)
        exact exitEmpty hex
      rcases errsOK with he | ⟨he, hc⟩
      · exact absurd (he.symm.trans herrs) (by simp)
      · have hvr := he.symm.trans herrs
        injection hvr with hv hrest
        refine ⟨canc, noquit, hist, subres, ?_, coordOK, wlen, exitEmpty, ?_, ?_⟩
        · exact Or.inl hrest.symm
        · intro _
          exact allExited (Or.inl hph)
        · intro r hr
          injection hr with hr
          exact ⟨hr.symm.trans hv.symm, hv.symm, hbufnil⟩
    · exact Option.noConfusion h
  | waitAgain =>
    simp only [step] at h
    split at h
    · injection h with h
      subst h
      exact ⟨canc, noquit, hist, subres, errsOK, coordOK, wlen, exitEmpty, allExited, retOK⟩
    · exact Option.noConfusion h



/-- C3: if N pairwise-independent tasks, each returning success, are submitted
to a fresh pool with capacity ≥ N and at least one worker, then in every
schedule (without cancellation or further submissions) in which `Wait`
returns, it returns no error, every submission succeeded, and the executed
history is exactly the submitted list — each task executed exactly once, no
re-execution and no loss. -/
theorem c3_all_success (cap w : Nat) (eoe : Bool) (tasks : List Task)
    (tr : List Label) (s : PState) (r : Option GErr)
    (hw : 1 ≤ w) (hcap : tasks.length ≤ cap)
    (hres : ∀ t ∈ tasks, t.res = none)
    (hq : tr.all quiet = true)
    (hrun : run (tasks.map (fun t => Label.submit (some t)) ++ tr)
        (init cap w eoe) = some s)
    (hret : s.waitPhase = .returned r) :
    r = none ∧ WaitRes r = none ∧ s.executed = tasks ∧
    s.submitResults = List.replicate tasks.length none := by
  rw [run_append] at hrun
  rw [run_submits tasks (init cap w eoe) rfl rfl (by simpa [init] using hcap)] at hrun
  simp only [] at hrun
  have hinv : C3Inv tasks w s := by
    refine run_preserve quiet (C3Inv tasks w)
      (fun l a b hql hab hpa => step_c3inv tasks w hw hres l a b hql hab hpa)
      tr _ s hq hrun ?_
    constructor <;> simp [init]
  obtain ⟨hr, hperr, hbuf⟩ := hinv.retOK r hret
  refine ⟨hr, by rw [hr]; rfl, ?_, hinv.subres⟩
  have hh := hinv.hist
  rw [hbuf] at hh
  simpa using hh

/-- The task list for the C3 witness. -/
def c3wTasks : List Task := [⟨0, none⟩]

/-- A complete schedule for the C3 witness: the worker executes the task,
`Wait` drains, the worker exits on the closed empty queue, the coordinator
exits through `exitFromErrG` and reports no error. -/
def c3wTrace : List Label :=
  [Label.workerExec 0, Label.waitCloseIn, Label.waitSetFlag,
   Label.workerExitClosed 0, Label.waitWorkersDone, Label.coordExitG,
   Label.coordSend, Label.waitRecv]

/-- Final state of the C3 witness schedule. -/
def c3wState : PState :=
  (run (c3wTasks.map (fun t => Label.submit (some t)) ++ c3wTrace)
      (init 1 1 false)).getD dflt

/-- C3 (witness): the theorem applied to a concrete one-task schedule that
runs to completion. -/
theorem c3_all_success_witness :
    (none : Option GErr) = none ∧ WaitRes none = none ∧
    c3wState.executed = c3wTasks ∧
    c3wState.submitResults = List.replicate c3wTasks.length none :=
  c3_all_success 1 1 false c3wTasks c3wTrace c3wState none (by decide) (by decide)
    (by decide) (by decide) rfl rfl



/-- Quiet steps (no `Submit`, no cancellation) never change the cancellation
flag, the exit-on-error configuration, the number of worker slots, or the
combined history `executed ++ buf` of tasks. -/
theorem step_frame (l : Label) (s s' : PState) (hql : quiet l = true)
    (h : step l s = some s') :
    s'.cancelled = s.cancelled ∧ s'.exitOnErr = s.exitOnErr ∧
    s'.workers.length = s.workers.length ∧
    s'.executed ++ s'.buf = s.executed ++ s.buf := by
  cases l <;> simp only [quiet] at hql <;>
    first
      | exact Bool.noConfusion hql
      | (simp only [step] at h
         repeat' split at h
         all_goals first
           | exact Option.noConfusion h
           | (injection h with h; subst h;
              refine ⟨rfl, rfl, ?_, ?_⟩ <;>
                simp_all [List.length_set, List.append_assoc]))



/-- The phases of `Wait` before `p.wg.Wait()` has completed. -/
def preRecv (p : WaitPhase) : Prop :=
  p = .notCalled ∨ p = .inChanClosed ∨ p = .flagSet

/-- `Wait` has not yet returned. -/
def notRet (p : WaitPhase) : Prop := ∀ r, p ≠ .returned r

/-- Inductive invariant for the single-failure scenario of C4 (exit-on-error
enabled), holding from the post-submission state on, over schedules without
further `Submit` calls or cancellation.  The disjunction tracks the location
of the single failure's error `e`: still pending in the queue (`tF` not yet
executed, nothing reported, coordinator waiting, quit and exitFromErrG not
fired, all workers running, `Wait` before its worker join); reported and
buffered in `p.errs` with the coordinator still waiting; buffered while the
coordinator is re-sending nil after `exitFromErrG`; held by the coordinator
between its receive and its re-send; re-sent and parked in `p.errs` with the
coordinator done; or captured into `p.err` by a returned `Wait`. -/
structure C4Inv (tasks : List Task) (tF : Task) (e : GErr) (w : Nat) (s : PState) : Prop where
  canc : s.cancelled = false
  hist : s.executed ++ s.buf = tasks
  wlen : s.workers.length = w
  eOn : s.exitOnErr = true
  disj :
    (s.buf.filter (fun t => t.res.isSome) = [tF] ∧ s.errs = [] ∧
      s.coord = .waiting ∧ s.quit = false ∧ s.exitG = false ∧
      s.workers.all id = true ∧ preRecv s.waitPhase) ∨
    (s.buf.filter (fun t => t.res.isSome) = [] ∧ s.errs = [some e] ∧
      s.coord = .waiting ∧ s.quit = false ∧ notRet s.waitPhase) ∨
    (s.buf.filter (fun t => t.res.isSome) = [] ∧ s.errs = [some e] ∧
      s.coord = .sending none ∧ notRet s.waitPhase) ∨
    (s.buf.filter (fun t => t.res.isSome) = [] ∧ s.errs = [] ∧
      s.coord = .sending (some e) ∧ notRet s.waitPhase) ∨
    (s.buf.filter (fun t => t.res.isSome) = [] ∧ s.errs = [some e] ∧
      s.coord = .done ∧ notRet s.waitPhase) ∨
    (s.waitPhase = .returned (some e) ∧ s.perr = some e)

theorem step_c4inv (tasks : List Task) (tF : Task) (e : GErr) (w : Nat)
    (hw : 1 ≤ w) (hF : tF.res = some e)
    (l : Label) (s s' : PState) (hql : quiet l = true)
    (h : step l s = some s') (hp : C4Inv tasks tF e w s) : C4Inv tasks tF e w s' := by
  obtain ⟨canc, hist, wlen, eOn, disj⟩ := hp
  obtain ⟨f1, f2, f3, f4⟩ := step_frame l s s' hql h
  refine ⟨f1.trans canc, f4.trans hist, f3.trans wlen, f2.trans eOn, ?_⟩
  have h0 := h
  cases l with
  | submit t => simp [quiet] at hql
  | cancel => simp [quiet] at hql
  | workerExec i =>
    simp only [step] at h
    split at h
    · split at h
      · exact Option.noConfusion h
      · rename_i t rest hbuf
        injection h with h
        subst h
        rcases disj with ⟨hfil, herr, hco, hq, hxg, hwk, hpre⟩ |
          ⟨hfil, herr, hco, hq, hnr⟩ | ⟨hfil, herr, hco, hnr⟩ |
          ⟨hfil, herr, hco, hnr⟩ | ⟨hfil, herr, hco, hnr⟩ | hD
        · rw [hbuf] at hfil
          by_cases hpt : t.res.isSome = true
          · simp only [List.filter_cons, if_pos hpt] at hfil
            injection hfil with h1 h2
            subst h1
            refine Or.inr (Or.inl ⟨h2, ?_, hco, hq, ?_⟩)
            · show (match t.res with
                | some e1 => reportErr s.errs e1
                | none => s.errs) = [some e]
              rw [hF, herr]
              rfl
            · intro r hph
              rcases hpre with h1 | h1 | h1 <;>
                (rw [h1] at hph; exact WaitPhase.noConfusion hph)
          · have htn : t.res = none := by
              cases hres1 : t.res
              · rfl
              · rw [hres1] at hpt; simp at hpt
            refine Or.inl ⟨?_, ?_, hco, hq, hxg, hwk, hpre⟩
            · simpa only [List.filter_cons, if_neg hpt] using hfil
            · show (match t.res with
                | some e1 => reportErr s.errs e1
                | none => s.errs) = []
              rw [htn]
              exact herr
        · rw [hbuf] at hfil
          by_cases hpt : t.res.isSome = true
          · simp only [List.filter_cons, if_pos hpt] at hfil
            exact absurd hfil (by simp)
          · have htn : t.res = none := by
              cases hres1 : t.res
              · rfl
              · rw [hres1] at hpt; simp at hpt
            refine Or.inr (Or.inl ⟨?_, ?_, hco, hq, hnr⟩)
            · simpa only [List.filter_cons, if_neg hpt] using hfil
            · show (match t.res with
                | some e1 => reportErr s.errs e1
                | none => s.errs) = [some e]
              rw [htn]
              exact herr
        · rw [hbuf] at hfil
          by_cases hpt : t.res.isSome = true
          · simp only [List.filter_cons, if_pos hpt] at hfil
            exact absurd hfil (by simp)
          · have htn : t.res = none := by
              cases hres1 : t.res
              · rfl
              · rw [hres1] at hpt; simp at hpt
            refine Or.inr (Or.inr (Or.inl ⟨?_, ?_, hco, hnr⟩))
            · simpa only [List.filter_cons, if_neg hpt] using hfil
            · show (match t.res with
                | some e1 => reportErr s.errs e1
                | none => s.errs) = [some e]
              rw [htn]
              exact herr
        · rw [hbuf] at hfil
          by_cases hpt : t.res.isSome = true
          · simp only [List.filter_cons, if_pos hpt] at hfil
            exact absurd hfil (by simp)
          · have htn : t.res = none := by
              cases hres1 : t.res
              · rfl
              · rw [hres1] at hpt; simp at hpt
            refine Or.inr (Or.inr (Or.inr (Or.inl ⟨?_, ?_, hco, hnr⟩)))
            · simpa only [List.filter_cons, if_neg hpt] using hfil
            · show (match t.res with
                | some e1 => reportErr s.errs e1
                | none => s.errs) = []
              rw [htn]
              exact herr
        · rw [hbuf] at hfil
          by_cases hpt : t.res.isSome = true
          · simp only [List.filter_cons, if_pos hpt] at hfil
            exact absurd hfil (by simp)
          · have htn : t.res = none := by
              cases hres1 : t.res
              · rfl
              · rw [hres1] at hpt; simp at hpt
            refine Or.inr (Or.inr (Or.inr (Or.inr (Or.inl ⟨?_, ?_, hco, hnr⟩))))
            · simpa only [List.filter_cons, if_neg hpt] using hfil
            · show (match t.res with
                | some e1 => reportErr s.errs e1
                | none => s.errs) = [some e]
              rw [htn]
              exact herr
        · have hst := step_returned_stable _ s _ (some e) h0 hD.1
          exact Or.inr (Or.inr (Or.inr (Or.inr (Or.inr
            ⟨hst.1, hst.2.trans hD.2⟩))))
    · exact Option.noConfusion h
  | workerExitQuit i =>
    simp only [step] at h
    split at h
    · rename_i hcond
      rw [Bool.and_eq_true] at hcond
      injection h with h
      subst h
      rcases disj with ⟨hfil, herr, hco, hq, hxg, hwk, hpre⟩ |
        ⟨hfil, herr, hco, hq, hnr⟩ | ⟨hfil, herr, hco, hnr⟩ |
        ⟨hfil, herr, hco, hnr⟩ | ⟨hfil, herr, hco, hnr⟩ | hD
      · exact absurd (hq.symm.trans hcond.2) Bool.false_ne_true
      · exact absurd (hq.symm.trans hcond.2) Bool.false_ne_true
      · exact Or.inr (Or.inr (Or.inl ⟨hfil, herr, hco, hnr⟩))
      · exact Or.inr (Or.inr (Or.inr (Or.inl ⟨hfil, herr, hco, hnr⟩)))
      · exact Or.inr (Or.inr (Or.inr (Or.inr (Or.inl ⟨hfil, herr, hco, hnr⟩))))
      · have hst := step_returned_stable _ s _ (some e) h0 hD.1
        exact Or.inr (Or.inr (Or.inr (Or.inr (Or.inr
          ⟨hst.1, hst.2.trans hD.2⟩))))
    · exact Option.noConfusion h
  | workerExitClosed i =>
    simp only [step] at h
    split at h
    · rename_i hcond
      rw [Bool.and_eq_true, Bool.and_eq_true] at hcond
      have hbe : s.buf = [] := by
        have := hcond.2
        rwa [List.isEmpty_iff] at this
      injection h with h
      subst h
      rcases disj with ⟨hfil, herr, hco, hq, hxg, hwk, hpre⟩ |
        ⟨hfil, herr, hco, hq, hnr⟩ | ⟨hfil, herr, hco, hnr⟩ |
        ⟨hfil, herr, hco, hnr⟩ | ⟨hfil, herr, hco, hnr⟩ | hD
      · rw [hbe] at hfil
        exact absurd hfil (by simp)
      · exact Or.inr (Or.inl ⟨hfil, herr, hco, hq, hnr⟩)
      · exact Or.inr (Or.inr (Or.inl ⟨hfil, herr, hco, hnr⟩))
      · exact Or.inr (Or.inr (Or.inr (Or.inl ⟨hfil, herr, hco, hnr⟩)))
      · exact Or.inr (Or.inr (Or.inr (Or.inr (Or.inl ⟨hfil, herr, hco, hnr⟩))))
      · have hst := step_returned_stable _ s _ (some e) h0 hD.1
        exact Or.inr (Or.inr (Or.inr (Or.inr (Or.inr
          ⟨hst.1, hst.2.trans hD.2⟩))))
    · exact Option.noConfusion h
  | coordCancel =>
    simp only [step] at h
    repeat' split at h
    all_goals first
      | exact Option.noConfusion h
      | (exact absurd (canc.symm.trans (by assumption)) Bool.false_ne_true)
  | coordErr =>
    simp only [step] at h
    split at h
    · rename_i v rest hco1 herrs
      injection h with h
      subst h
      rcases disj with ⟨hfil, herr, hco, hq, hxg, hwk, hpre⟩ |
        ⟨hfil, herr, hco, hq, hnr⟩ | ⟨hfil, herr, hco, hnr⟩ |
        ⟨hfil, herr, hco, hnr⟩ | ⟨hfil, herr, hco, hnr⟩ | hD
      · exact absurd (herr.symm.trans herrs) (by simp)
      · have hvr := herr.symm.trans herrs
        injection hvr with hv hrest
        refine Or.inr (Or.inr (Or.inr (Or.inl ⟨hfil, hrest.symm, ?_, hnr⟩)))
        show CoordState.sending v = .sending (some e)
        rw [← hv]
      · exact absurd (hco.symm.trans hco1) (by simp)
      · exact absurd (hco.symm.trans hco1) (by simp)
      · exact absurd (hco.symm.trans hco1) (by simp)
      · have hst := step_returned_stable _ s _ (some e) h0 hD.1
        exact Or.inr (Or.inr (Or.inr (Or.inr (Or.inr
          ⟨hst.1, hst.2.trans hD.2⟩))))
    · exact Option.noConfusion h
  | coordExitG =>
    simp only [step] at h
    split at h
    · rename_i hco1
      split at h
      · rename_i hxg1
        injection h with h
        subst h
        rcases disj with ⟨hfil, herr, hco, hq, hxg, hwk, hpre⟩ |
          ⟨hfil, herr, hco, hq, hnr⟩ | ⟨hfil, herr, hco, hnr⟩ |
          ⟨hfil, herr, hco, hnr⟩ | ⟨hfil, herr, hco, hnr⟩ | hD
        · exact absurd (hxg.symm.trans hxg1) Bool.false_ne_true
        · exact Or.inr (Or.inr (Or.inl ⟨hfil, herr, rfl, hnr⟩))
        · exact absurd (hco.symm.trans hco1) (by simp)
        · exact absurd (hco.symm.trans hco1) (by simp)
        · exact absurd (hco.symm.trans hco1) (by simp)
        · have hst := step_returned_stable _ s _ (some e) h0 hD.1
          exact Or.inr (Or.inr (Or.inr (Or.inr (Or.inr
            ⟨hst.1, hst.2.trans hD.2⟩))))
      · exact Option.noConfusion h
    · exact Option.noConfusion h
  | coordSend =>
    simp only [step] at h
    split at h
    · rename_i v hco1
      split at h
      · rename_i hlen1
        injection h with h
        subst h
        rcases disj with ⟨hfil, herr, hco, hq, hxg, hwk, hpre⟩ |
          ⟨hfil, herr, hco, hq, hnr⟩ | ⟨hfil, herr, hco, hnr⟩ |
          ⟨hfil, herr, hco, hnr⟩ | ⟨hfil, herr, hco, hnr⟩ | hD
        · exact absurd (hco.symm.trans hco1) (by simp)
        · exact absurd (hco.symm.trans hco1) (by simp)
        · rw [herr] at hlen1
          simp at hlen1
        · have hveq := hco.symm.trans hco1
          injection hveq with hveq
          refine Or.inr (Or.inr (Or.inr (Or.inr (Or.inl ⟨hfil, ?_, rfl, hnr⟩))))
          show s.errs ++ [v] = [some e]
          rw [herr, ← hveq]
          rfl
        · exact absurd (hco.symm.trans hco1) (by simp)
        · have hst := step_returned_stable _ s _ (some e) h0 hD.1
          exact Or.inr (Or.inr (Or.inr (Or.inr (Or.inr
            ⟨hst.1, hst.2.trans hD.2⟩))))
      · exact Option.noConfusion h
    · exact Option.noConfusion h
  | waitCloseIn =>
    simp only [step] at h
    split at h
    · rename_i hph1
      injection h with h
      subst h
      rcases disj with ⟨hfil, herr, hco, hq, hxg, hwk, hpre⟩ |
        ⟨hfil, herr, hco, hq, hnr⟩ | ⟨hfil, herr, hco, hnr⟩ |
        ⟨hfil, herr, hco, hnr⟩ | ⟨hfil, herr, hco, hnr⟩ | hD
      · exact Or.inl ⟨hfil, herr, hco, hq, hxg, hwk, Or.inr (Or.inl rfl)⟩
      · exact Or.inr (Or.inl ⟨hfil, herr, hco, hq,
          fun r hc => WaitPhase.noConfusion hc⟩)
      · exact Or.inr (Or.inr (Or.inl ⟨hfil, herr, hco,
          fun r hc => WaitPhase.noConfusion hc⟩))
      · exact Or.inr (Or.inr (Or.inr (Or.inl ⟨hfil, herr, hco,
          fun r hc => WaitPhase.noConfusion hc⟩)))
      · exact Or.inr (Or.inr (Or.inr (Or.inr (Or.inl ⟨hfil, herr, hco,
          fun r hc => WaitPhase.noConfusion hc⟩))))
      · have hst := step_returned_stable _ s _ (some e) h0 hD.1
        exact Or.inr (Or.inr (Or.inr (Or.inr (Or.inr
          ⟨hst.1, hst.2.trans hD.2⟩))))
    · exact Option.noConfusion h
  | waitSetFlag =>
    simp only [step] at h
    split at h
    · rename_i hph1
      injection h with h
      subst h
      rcases disj with ⟨hfil, herr, hco, hq, hxg, hwk, hpre⟩ |
        ⟨hfil, herr, hco, hq, hnr⟩ | ⟨hfil, herr, hco, hnr⟩ |
        ⟨hfil, herr, hco, hnr⟩ | ⟨hfil, herr, hco, hnr⟩ | hD
      · exact Or.inl ⟨hfil, herr, hco, hq, hxg, hwk, Or.inr (Or.inr rfl)⟩
      · exact Or.inr (Or.inl ⟨hfil, herr, hco, hq,
          fun r hc => WaitPhase.noConfusion hc⟩)
      · exact Or.inr (Or.inr (Or.inl ⟨hfil, herr, hco,
          fun r hc => WaitPhase.noConfusion hc⟩))
      · exact Or.inr (Or.inr (Or.inr (Or.inl ⟨hfil, herr, hco,
          fun r hc => WaitPhase.noConfusion hc⟩)))
      · exact Or.inr (Or.inr (Or.inr (Or.inr (Or.inl ⟨hfil, herr, hco,
          fun r hc => WaitPhase.noConfusion hc⟩))))
      · have hst := step_returned_stable _ s _ (some e) h0 hD.1
        exact Or.inr (Or.inr (Or.inr (Or.inr (Or.inr
          ⟨hst.1, hst.2.trans hD.2⟩))))
    · exact Option.noConfusion h
  | waitWorkersDone =>
    simp only [step] at h
    split at h
    · rename_i hph1
      split at h
      · rename_i hall
        injection h with h
        subst h
        rcases disj with ⟨hfil, herr, hco, hq, hxg, hwk, hpre⟩ |
          ⟨hfil, herr, hco, hq, hnr⟩ | ⟨hfil, herr, hco, hnr⟩ |
          ⟨hfil, herr, hco, hnr⟩ | ⟨hfil, herr, hco, hnr⟩ | hD
        · exact absurd hall (not_all_not_of_all_id s.workers hwk
            (by rw [wlen]; exact hw))
        · exact Or.inr (Or.inl ⟨hfil, herr, hco, hq,
            fun r hc => WaitPhase.noConfusion hc⟩)
        · exact Or.inr (Or.inr (Or.inl ⟨hfil, herr, hco,
            fun r hc => WaitPhase.noConfusion hc⟩))
        · exact Or.inr (Or.inr (Or.inr (Or.inl ⟨hfil, herr, hco,
            fun r hc => WaitPhase.noConfusion hc⟩)))
        · exact Or.inr (Or.inr (Or.inr (Or.inr (Or.inl ⟨hfil, herr, hco,
            fun r hc => WaitPhase.noConfusion hc⟩))))
        · have hst := step_returned_stable _ s _ (some e) h0 hD.1
          exact Or.inr (Or.inr (Or.inr (Or.inr (Or.inr
            ⟨hst.1, hst.2.trans hD.2⟩))))
      · exact Option.noConfusion h
    · exact Option.noConfusion h
  | waitRecv =>
    simp only [step] at h
    split at h
    · rename_i v rest hph1 herrs
      injection h with h
      subst h
      rcases disj with ⟨hfil, herr, hco, hq, hxg, hwk, hpre⟩ |
        ⟨hfil, herr, hco, hq, hnr⟩ | ⟨hfil, herr, hco, hnr⟩ |
        ⟨hfil, herr, hco, hnr⟩ | ⟨hfil, herr, hco, hnr⟩ | hD
      · rcases hpre with h1 | h1 | h1 <;>
          exact WaitPhase.noConfusion (h1.symm.trans hph1)
      · have hvr := herr.symm.trans herrs
        injection hvr with hv hrest
        refine Or.inr (Or.inr (Or.inr (Or.inr (Or.inr ⟨?_, ?_⟩))))
        · show WaitPhase.returned v = .returned (some e)
          rw [← hv]
        · show v = some e
          exact hv.symm
      · have hvr := herr.symm.trans herrs
        injection hvr with hv hrest
        refine Or.inr (Or.inr (Or.inr (Or.inr (Or.inr ⟨?_, ?_⟩))))
        · show WaitPhase.returned v = .returned (some e)
          rw [← hv]
        · show v = some e
          exact hv.symm
      · exact absurd (herr.symm.trans herrs) (by simp)
      · have hvr := herr.symm.trans herrs
        injection hvr with hv hrest
        refine Or.inr (Or.inr (Or.inr (Or.inr (Or.inr ⟨?_, ?_⟩))))
        · show WaitPhase.returned v = .returned (some e)
          rw [← hv]
        · show v = some e
          exact hv.symm
      · exact absurd (hD.1.symm.trans hph1) (by simp)
    · exact Option.noConfusion h
  | waitAgain =>
    simp only [step] at h
    split at h
    · rename_i r1 hph1
      injection h with h
      subst h
      rcases disj with ⟨hfil, herr, hco, hq, hxg, hwk, hpre⟩ |
        ⟨hfil, herr, hco, hq, hnr⟩ | ⟨hfil, herr, hco, hnr⟩ |
        ⟨hfil, herr, hco, hnr⟩ | ⟨hfil, herr, hco, hnr⟩ | hD
      · rcases hpre with h1 | h1 | h1 <;>
          exact WaitPhase.noConfusion (h1.symm.trans hph1)
      · exact absurd hph1 (hnr _)
      · exact absurd hph1 (hnr _)
      · exact absurd hph1 (hnr _)
      · exact absurd hph1 (hnr _)
      · exact Or.inr (Or.inr (Or.inr (Or.inr (Or.inr hD))))
    · exact Option.noConfusion h



/-- C4: if, among the tasks submitted to a fresh pool with exit-on-error
enabled (capacity ≥ N, at least one worker), exactly one returns a failure
value `e`, then in every schedule (without cancellation or further
submissions) in which `Wait` returns, the captured error is exactly `e` and
`Wait` returns `e` wrapped at its call site, identified by `errors.Is`. -/
theorem c4_single_failure (cap w : Nat) (tasks : List Task) (tF : Task)
    (e : GErr) (tr : List Label) (s : PState) (r : Option GErr)
    (hw : 1 ≤ w) (hcap : tasks.length ≤ cap)
    (hone : tasks.filter (fun t => t.res.isSome) = [tF])
    (hF : tF.res = some e)
    (hq : tr.all quiet = true)
    (hrun : run (tasks.map (fun t => Label.submit (some t)) ++ tr)
        (init cap w true) = some s)
    (hret : s.waitPhase = .returned r) :
    r = some e ∧ WaitRes r = some (.wrapped "gowp.Pool.Wait(): " e) ∧
    errsIs (.wrapped "gowp.Pool.Wait(): " e) e = true := by
  rw [run_append] at hrun
  rw [run_submits tasks (init cap w true) rfl rfl (by simpa [init] using hcap)] at hrun
  simp only [] at hrun
  have hinv : C4Inv tasks tF e w s := by
    refine run_preserve quiet (C4Inv tasks tF e w)
      (fun l a b hql hab hpa => step_c4inv tasks tF e w hw hF l a b hql hab hpa)
      tr _ s hq hrun ?_
    refine ⟨rfl, by simp [init], by simp [init], rfl, Or.inl ⟨?_, rfl, rfl, rfl, rfl, ?_, Or.inl rfl⟩⟩
    · simpa using hone
    · simp [init]
  rcases hinv.disj with ⟨_, _, _, _, _, _, hpre⟩ |
    ⟨_, _, _, _, hnr⟩ | ⟨_, _, _, hnr⟩ | ⟨_, _, _, hnr⟩ | ⟨_, _, _, hnr⟩ | hD
  · rcases hpre with h1 | h1 | h1 <;>
      exact absurd (h1.symm.trans hret) (by simp)
  · exact absurd hret (hnr r)
  · exact absurd hret (hnr r)
  · exact absurd hret (hnr r)
  · exact absurd hret (hnr r)
  · have hre := hret.symm.trans hD.1
    injection hre with hre
    exact ⟨hre, by rw [hre]; rfl, errsIs_wrap _ _⟩

/-- The task list for the C4 witness: a single failing task. -/
def c4wTasks : List Task := [⟨0, some (.user 7)⟩]

/-- A complete schedule for the C4 witness: the worker executes the failing
task and reports its error; the coordinator receives it, closes quit, and
re-sends it; the worker exits on quit; `Wait` drains and captures the
error. -/
def c4wTrace : List Label :=
  [Label.workerExec 0, Label.coordErr, Label.coordSend, Label.workerExitQuit 0,
   Label.waitCloseIn, Label.waitSetFlag, Label.waitWorkersDone, Label.waitRecv]

/-- Final state of the C4 witness schedule. -/
def c4wState : PState :=
  (run (c4wTasks.map (fun t => Label.submit (some t)) ++ c4wTrace)
      (init 1 1 true)).getD dflt

/-- C4 (witness): the theorem applied to a concrete schedule with one failing
task, exit-on-error enabled. -/
theorem c4_single_failure_witness :
    (some (GErr.user 7) : Option GErr) = some (.user 7) ∧
    WaitRes (some (.user 7)) = some (.wrapped "gowp.Pool.Wait(): " (.user 7)) ∧
    errsIs (.wrapped "gowp.Pool.Wait(): " (.user 7)) (.user 7) = true :=
  c4_single_failure 1 1 c4wTasks ⟨0, some (.user 7)⟩ (.user 7) c4wTrace c4wState
    (some (.user 7)) (by decide) (by decide) (by decide) (by decide) (by decide)
    rfl rfl


end Gowp
